import Mathlib

/-!
Verification development for the rule engine of the claude-hooks repository:
pattern compilation and caching (internal/rules/pattern.go), the matcher
algebra (matchers in the rules package), the priority-ordered rule registry
and the evaluator (internal/rules/evaluator.go).

Machine-level concerns that do not affect the single-threaded semantics
(mutexes, pointer identity) are modelled by explicit state passing; a Go
pointer that may be nil is modelled by Option; a Go panic (nil-pointer
dereference) is modelled by an Option-valued result where none stands for
the aborted computation.
-/

/-- A compiled pattern (GlobPattern or RegexPattern in pattern.go): after
compilation it is an immutable predicate over strings. The concrete glob and
regular-expression engines are external libraries; a compiled pattern is
modelled by its matching function. -/
structure Pattern where
  Match : String → Bool

/-- A compiled pattern that matches every string, such as the compiled
regular expression .* (Go regexp.MatchString with pattern .* accepts every
string, the empty string included). -/
def patternMatchAll : Pattern := ⟨fun _ => true⟩

/-- Modelled from the spec: the action kind of a rule, with kind being one of
block, warn, allow (the ActionType declaration lives in the rules package
type declarations that are not part of the sources under study). -/
inductive ActionType where
  | block
  | warn
  | allow
deriving DecidableEq

/-- Git facts of a match context (RepoRoot, Remote, Branch), per the fields
the matchers in the rules package read. -/
structure GitContext where
  RepoRoot : String
  Remote : String
  Branch : String
deriving DecidableEq

/-- File facts of a match context (Path, Content), per the fields the
matchers read. -/
structure FileContext where
  Path : String
  Content : String
deriving DecidableEq

/-- Modelled from the spec: the fallback hook context (pkg/hook Context),
which supplies tool name, event type, file path, command, and content when
the specific contexts are absent. The declaration and its accessors are not
part of the sources under study; the accessors are modelled as field reads
per the spec wording. -/
structure HookContext where
  ToolName : String
  EventType : String
  FilePath : String
  Command : String
  Content : String
deriving DecidableEq

/-- Modelled from the spec: accessor GetFilePath of the hook context. -/
def HookContext.GetFilePath (h : HookContext) : String := h.FilePath

/-- Modelled from the spec: accessor GetContent of the hook context. -/
def HookContext.GetContent (h : HookContext) : String := h.Content

/-- Modelled from the spec: accessor GetCommand of the hook context. -/
def HookContext.GetCommand (h : HookContext) : String := h.Command

/-- The read-only facts evaluated against matchers for one decision
(MatchContext in the rules package): validator type, optional git context,
optional file context, optional raw command, optional fallback hook
context. -/
structure MatchContext where
  ValidatorType : String
  GitContext : Option GitContext
  FileContext : Option FileContext
  Command : String
  HookContext : Option HookContext
deriving DecidableEq

/-- Modelled from the spec: the universal wildcard validator type constant
ValidatorAll; a validator-type field holding it matches every validator
type. -/
def ValidatorAll : String := "*"

/-- The operation of a composite matcher (CompositeOp in the rules
package). -/
inductive CompositeOp where
  | and
  | or
  | not
deriving DecidableEq

/-- The closed family of matchers of the rules package: the leaf matchers,
the composite matcher over a list of children, and the two degenerate
matchers AlwaysMatcher and NeverMatcher. Pattern-backed leaves carry their
compiled Pattern. -/
inductive Matcher where
  | repoPattern (p : Pattern)
  | remote (r : String)
  | branchPattern (p : Pattern)
  | filePattern (p : Pattern)
  | contentPattern (p : Pattern)
  | commandPattern (p : Pattern)
  | validatorType (v : String)
  | toolType (t : String)
  | eventType (t : String)
  | composite (op : CompositeOp) (children : List Matcher)
  | always
  | never

/-- Case-insensitive string equality, modelling strings.EqualFold as used by
the tool-type and event-type matchers. -/
def eqFold (a b : String) : Bool := a.toLower == b.toLower

/-- strings.HasPrefix: s starts with p, rendered over the character list. -/
def strStartsWith (s p : String) : Bool := p.data.isPrefixOf s.data

/-- The suffix test of strings.CutSuffix: s ends with p. -/
def strEndsWith (s p : String) : Bool := p.data.isSuffixOf s.data

/-- Removal of the last n characters, the remainder strings.CutSuffix keeps
when the suffix is present. -/
def strDropRight (s : String) (n : Nat) : String :=
  ⟨s.data.take (s.data.length - n)⟩

mutual

/-- Matcher.Match of the rules package, over a possibly nil context. The
argument none is the nil context pointer; a result of none models the panic
of a nil-pointer dereference. Each leaf follows its Go Match method body;
the composite case follows CompositeMatcher.Match with its empty-children
guard before the operator switch and its short-circuiting loops. -/
def Matcher.matchOpt : Matcher → Option MatchContext → Option Bool
  | .repoPattern p, octx =>
    match octx with
    | none => none
    | some ctx =>
      match ctx.GitContext with
      | none => some false
      | some g => some (if g.RepoRoot == "" then false else p.Match g.RepoRoot)
  | .remote r, octx =>
    match octx with
    | none => none
    | some ctx =>
      match ctx.GitContext with
      | none => some false
      | some g => some (g.Remote == r)
  | .branchPattern p, octx =>
    match octx with
    | none => none
    | some ctx =>
      match ctx.GitContext with
      | none => some false
      | some g => some (if g.Branch == "" then false else p.Match g.Branch)
  | .filePattern p, octx =>
    match octx with
    | none => none
    | some ctx =>
      match ctx.FileContext with
      | some f =>
        if f.Path == "" then
          match ctx.HookContext with
          | some h => some (p.Match h.GetFilePath)
          | none => some false
        else some (p.Match f.Path)
      | none =>
        match ctx.HookContext with
        | some h => some (p.Match h.GetFilePath)
        | none => some false
  | .contentPattern p, octx =>
    match octx with
    | none => none
    | some ctx =>
      match ctx.FileContext with
      | some f =>
        if f.Content == "" then
          match ctx.HookContext with
          | some h => some (p.Match h.GetContent)
          | none => some false
        else some (p.Match f.Content)
      | none =>
        match ctx.HookContext with
        | some h => some (p.Match h.GetContent)
        | none => some false
  | .commandPattern p, octx =>
    match octx with
    | none => none
    | some ctx =>
      if ctx.Command == "" then
        match ctx.HookContext with
        | some h => some (p.Match h.GetCommand)
        | none => some false
      else some (p.Match ctx.Command)
  | .validatorType v, octx =>
    if v == ValidatorAll then some true
    else
      match octx with
      | none => none
      | some ctx =>
        some (if ctx.ValidatorType == "" then false
          else if ctx.ValidatorType == v then true
          else if strEndsWith v ".*" then
            strStartsWith ctx.ValidatorType (strDropRight v 2 ++ ".")
          else false)
  | .toolType t, octx =>
    match octx with
    | none => none
    | some ctx =>
      match ctx.HookContext with
      | none => some false
      | some h => some (eqFold h.ToolName t)
  | .eventType t, octx =>
    match octx with
    | none => none
    | some ctx =>
      match ctx.HookContext with
      | none => some false
      | some h => some (eqFold h.EventType t)
  | .composite _ [], _ => some true
  | .composite .and (m :: rest), octx => Matcher.andList (m :: rest) octx
  | .composite .or (m :: rest), octx => Matcher.orList (m :: rest) octx
  | .composite .not (m :: _), octx =>
    match Matcher.matchOpt m octx with
    | none => none
    | some b => some (!b)
  | .always, _ => some true
  | .never, _ => some false

/-- The AND loop of CompositeMatcher.Match: children evaluated in order,
stopping at the first false child. -/
def Matcher.andList : List Matcher → Option MatchContext → Option Bool
  | [], _ => some true
  | m :: rest, octx =>
    match Matcher.matchOpt m octx with
    | none => none
    | some false => some false
    | some true => Matcher.andList rest octx

/-- The OR loop of CompositeMatcher.Match: children evaluated in order,
stopping at the first true child. -/
def Matcher.orList : List Matcher → Option MatchContext → Option Bool
  | [], _ => some false
  | m :: rest, octx =>
    match Matcher.matchOpt m octx with
    | none => none
    | some true => some true
    | some false => Matcher.orList rest octx

end

/-- The condition set of a rule (RuleMatch in the rules package): optional
simple fields and optional pattern texts; the empty string stands for an
absent field. -/
structure RuleMatch where
  ValidatorType : String
  Remote : String
  ToolType : String
  EventType : String
  RepoPattern : String
  BranchPattern : String
  FilePattern : String
  ContentPattern : String
  CommandPattern : String
deriving DecidableEq

/-- The action of a rule (RuleAction in the rules package). The Go field
named Type is rendered Type' because Type is a Lean keyword. -/
structure RuleAction where
  Type' : ActionType
  Message : String
  Reference : String
deriving DecidableEq

/-- A named policy unit (Rule in the rules package). Match and Action are
pointers in Go, hence Option here. -/
structure Rule where
  Name : String
  Description : String
  Enabled : Bool
  Priority : Int
  Match : Option RuleMatch
  Action : Option RuleAction
deriving DecidableEq

/-- A rule paired with its compiled matcher (CompiledRule). -/
structure CompiledRule where
  Rule : Rule
  Matcher : Matcher

/-- The rule registry is its slice of compiled rules; the mutex only guards
concurrent access and does not affect the sequential semantics. -/
abbrev Registry := List CompiledRule

/-- The evaluation outcome (RuleResult): Rule is a pointer in Go, hence
Option; Message and Reference are empty in the unmatched result, matching
the zero values of the omitted Go struct fields. -/
structure RuleResult where
  Matched : Bool
  Rule : Option Rule
  Action : ActionType
  Message : String
  Reference : String
deriving DecidableEq

/-- The helper of matcherBuilder.addPatternMatcher: skip when a previous
step failed or the pattern text is empty, otherwise compile and append,
recording the first failure. -/
def addPat (compile : String → Except String Pattern)
    (mk : Pattern → Matcher) (pat : String)
    (acc : Except String (List Matcher)) : Except String (List Matcher) :=
  match acc with
  | .error e => .error e
  | .ok ms =>
    if pat == "" then .ok ms
    else
      match compile pat with
      | .error e => .error e
      | .ok p => .ok (ms ++ [mk p])

/-- BuildMatcher of the rules package, parametrised over the two pattern
compilers it calls: compile is GetCachedPattern (glob-or-regex with the
shared cache) used by the repo, branch, file and command matchers, and
compileRegex is NewRegexPattern used by the content matcher. A nil RuleMatch
or an empty condition set yields no matcher (ok none); otherwise the simple
matchers are added first (validator type, remote, tool type, event type),
then the pattern matchers in source order, aborting on the first compile
error; a single matcher is returned bare and two or more are wrapped in an
AND composite. -/
def BuildMatcher (compile compileRegex : String → Except String Pattern) :
    Option RuleMatch → Except String (Option Matcher)
  | none => .ok none
  | some m =>
    let simples : List Matcher :=
      (if m.ValidatorType != "" then [Matcher.validatorType m.ValidatorType] else []) ++
      (if m.Remote != "" then [Matcher.remote m.Remote] else []) ++
      (if m.ToolType != "" then [Matcher.toolType m.ToolType] else []) ++
      (if m.EventType != "" then [Matcher.eventType m.EventType] else [])
    let acc := addPat compile Matcher.commandPattern m.CommandPattern
      (addPat compileRegex Matcher.contentPattern m.ContentPattern
        (addPat compile Matcher.filePattern m.FilePattern
          (addPat compile Matcher.branchPattern m.BranchPattern
            (addPat compile Matcher.repoPattern m.RepoPattern (.ok simples)))))
    match acc with
    | .error e => .error e
    | .ok [] => .ok none
    | .ok [x] => .ok (some x)
    | .ok xs => .ok (some (Matcher.composite .and xs))

/-- The sort order of sortRulesLocked and MergeRules: descending priority,
then ascending name. -/
def ruleLE (a b : CompiledRule) : Prop :=
  b.Rule.Priority < a.Rule.Priority ∨
    (a.Rule.Priority = b.Rule.Priority ∧ a.Rule.Name ≤ b.Rule.Name)

instance : DecidableRel ruleLE := by
  intro a b
  unfold ruleLE
  infer_instance

instance : IsTotal CompiledRule ruleLE := by
  constructor
  intro a b
  rcases lt_trichotomy a.Rule.Priority b.Rule.Priority with h | h | h
  · exact Or.inr (Or.inl h)
  · rcases le_total a.Rule.Name b.Rule.Name with hn | hn
    · exact Or.inl (Or.inr ⟨h, hn⟩)
    · exact Or.inr (Or.inr ⟨h.symm, hn⟩)
  · exact Or.inl (Or.inl h)

instance : IsTrans CompiledRule ruleLE := by
  constructor
  intro a b c hab hbc
  rcases hab with h1 | ⟨h1, hn1⟩
  · rcases hbc with h2 | ⟨h2, _⟩
    · exact Or.inl (h2.trans h1)
    · exact Or.inl (h2 ▸ h1)
  · rcases hbc with h2 | ⟨h2, hn2⟩
    · exact Or.inl (h1 ▸ h2)
    · exact Or.inr ⟨h1.trans h2, le_trans hn1 hn2⟩

/-- sortRulesLocked: sort by descending priority then ascending name. The Go
code sorts with an arbitrary comparison sort; since registry rule names are
unique, elements never compare equal and every comparison sort produces this
list. -/
def sortRules (l : Registry) : Registry := List.insertionSort ruleLE l

/-- The body of Registry.Add after successful validation and compilation:
replace the first entry bearing the same name, or append a new entry. -/
def addToRules (cr : CompiledRule) : Registry → Registry
  | [] => [cr]
  | x :: xs =>
    if x.Rule.Name == cr.Rule.Name then cr :: xs else x :: addToRules cr xs

/-- Registry.Add, parametrised over the pattern compilers used by
BuildMatcher. The state-passing rendering returns the error (if any)
together with the registry contents after the call; every validation or
compile failure exits before the mutation, so those arms return the input
slice. A rule with no conditions receives the AlwaysMatcher. -/
def Registry.Add (compile compileRegex : String → Except String Pattern)
    (r : Registry) (rule : Option Rule) : Option String × Registry :=
  match rule with
  | none => (some "rule cannot be nil", r)
  | some rule =>
    if rule.Name == "" then (some "rule name cannot be empty", r)
    else
      match rule.Action with
      | none => (some "rule action cannot be nil", r)
      | some _ =>
        match BuildMatcher compile compileRegex rule.Match with
        | .error e => (some ("failed to compile rule matcher: " ++ e), r)
        | .ok om =>
          let matcher := om.getD Matcher.always
          (none, sortRules (addToRules ⟨rule, matcher⟩ r))

/-- Registry.Remove: delete the first entry with the given name, reporting
whether a deletion occurred. -/
def Registry.Remove (r : Registry) (name : String) : Bool × Registry :=
  match r with
  | [] => (false, [])
  | cr :: rest =>
    if cr.Rule.Name == name then (true, rest)
    else
      let (b, l) := Registry.Remove rest name
      (b, cr :: l)

/-- Registry.Clear: remove all rules. -/
def Registry.Clear (_ : Registry) : Registry := []

/-- Registry.GetEnabled: the enabled rules in stored order. -/
def Registry.GetEnabled (r : Registry) : Registry :=
  r.filter (fun cr => cr.Rule.Enabled)

/-- Insertion into the name-to-index map of Registry.Merge, with the
overwrite semantics of a Go map assignment. -/
def idxInsert : List (String × Nat) → String → Nat → List (String × Nat)
  | [], k, v => [(k, v)]
  | (k', v') :: rest, k, v =>
    if k' == k then (k, v) :: rest else (k', v') :: idxInsert rest k v

/-- Lookup in an association list, first binding wins (Go map lookup for
maps maintained through idxInsert, whose keys are unique). -/
def mapLookup {α : Type} : List (String × α) → String → Option α
  | [], _ => none
  | (k, v) :: rest, t => if k == t then some v else mapLookup rest t

/-- The loop building the name-to-index map of Registry.Merge: the rules
are visited in order with their running index, and a later entry overwrites
an earlier one of the same name, as a Go map assignment does. -/
def buildIdxFrom : Nat → List CompiledRule → List (String × Nat) → List (String × Nat)
  | _, [], m => m
  | i, cr :: rest, m => buildIdxFrom (i + 1) rest (idxInsert m cr.Rule.Name i)

/-- The name-to-index map Registry.Merge builds over the receiver rules. -/
def buildIdx (r : Registry) : List (String × Nat) :=
  buildIdxFrom 0 r []

/-- The merge loop of Registry.Merge: a source rule whose name is in the map
overwrites the entry at the mapped index; otherwise it is appended and its
index recorded. -/
def mergeLoop : Registry → List (String × Nat) → List CompiledRule → Registry
  | acc, _, [] => acc
  | acc, idxMap, s :: rest =>
    match mapLookup idxMap s.Rule.Name with
    | some i => mergeLoop (acc.set i s) idxMap rest
    | none => mergeLoop (acc ++ [s]) (idxInsert idxMap s.Rule.Name acc.length) rest

/-- Registry.Merge: rules from the source registry overwrite same-named
rules of the receiver, new ones are appended, and the result is re-sorted. -/
def Registry.Merge (r source : Registry) : Registry :=
  sortRules (mergeLoop r (buildIdx r) source)

/-- The rule evaluator (Evaluator): registry pointer (nil-able), the
stop-on-first-match flag, and the default action. -/
structure Evaluator where
  registry : Option Registry
  stopOnFirstMatch : Bool
  defaultAction : ActionType

/-- The unmatched RuleResult carrying the default action. -/
def unmatched (d : ActionType) : RuleResult :=
  ⟨false, none, d, "", ""⟩

/-- The loop of Evaluator.Evaluate over the enabled rules: the first rule
whose matcher matches yields the matched result built from its action; a
none result models the panic of a nil match context inside a matcher or of
a nil action dereference. -/
def evalFirst (d : ActionType) (ctx : MatchContext) : Registry → Option RuleResult
  | [] => some (unmatched d)
  | cr :: rest =>
    match Matcher.matchOpt cr.Matcher (some ctx) with
    | none => none
    | some true =>
      match cr.Rule.Action with
      | none => none
      | some a => some ⟨true, some cr.Rule, a.Type', a.Message, a.Reference⟩
    | some false => evalFirst d ctx rest

/-- Evaluator.Evaluate: a nil registry or an empty enabled set yields the
unmatched result with the default action; otherwise the walk over the
enabled rules in stored order. -/
def Evaluator.Evaluate (e : Evaluator) (ctx : MatchContext) : Option RuleResult :=
  match e.registry with
  | none => some (unmatched e.defaultAction)
  | some reg =>
    let rules := Registry.GetEnabled reg
    if rules.isEmpty then some (unmatched e.defaultAction)
    else evalFirst e.defaultAction ctx rules

/-- The loop of Evaluator.EvaluateAll: collect a matched result for every
matching enabled rule, in stored order. -/
def evalAll (ctx : MatchContext) : Registry → Option (List RuleResult)
  | [] => some []
  | cr :: rest =>
    match Matcher.matchOpt cr.Matcher (some ctx) with
    | none => none
    | some true =>
      match cr.Rule.Action with
      | none => none
      | some a =>
        (evalAll ctx rest).map
          (fun l => ⟨true, some cr.Rule, a.Type', a.Message, a.Reference⟩ :: l)
    | some false => evalAll ctx rest

/-- Evaluator.EvaluateAll: a nil registry or an empty enabled set yields the
empty collection (a nil slice in Go); otherwise all matching results. -/
def Evaluator.EvaluateAll (e : Evaluator) (ctx : MatchContext) :
    Option (List RuleResult) :=
  match e.registry with
  | none => some []
  | some reg =>
    let rules := Registry.GetEnabled reg
    if rules.isEmpty then some [] else evalAll ctx rules

/-- The minimal context Evaluator.FilterByValidator builds, containing only
the validator type. -/
def minimalCtx (v : String) : MatchContext :=
  ⟨v, none, none, "", none⟩

/-- Evaluator.FilterByValidator: over the enabled rules, keep those whose
rule has no match block or an empty validator-type field, and those whose
validator-type condition matches the given type under the validator-type
matcher run on the minimal context. -/
def Evaluator.FilterByValidator (e : Evaluator) (v : String) : Registry :=
  match e.registry with
  | none => []
  | some reg =>
    let rules := Registry.GetEnabled reg
    if rules.isEmpty then []
    else
      rules.filter (fun cr =>
        match cr.Rule.Match with
        | none => true
        | some m =>
          if m.ValidatorType == "" then true
          else
            Matcher.matchOpt (Matcher.validatorType m.ValidatorType)
              (some (minimalCtx v)) == some true)

/-- The pattern cache (PatternCache in pattern.go): one map for compiled
patterns and one for remembered compile errors, both keyed by the literal
pattern text. Go maps are rendered as association lists whose keys stay
unique because an insertion only ever happens on a missed key. -/
structure PatternCache where
  patterns : List (String × Pattern)
  errors : List (String × String)

/-- NewPatternCache: both maps empty. -/
def PatternCache.new : PatternCache := ⟨[], []⟩

/-- PatternCache.Get, parametrised over the underlying compiler
(CompilePattern). Returns the lookup outcome, the cache state after the
call, and whether the compiler was invoked. The read fast path returns a
cached pattern or cached error unchanged; only a double miss compiles and
stores the outcome. The double-checked locking of the Go code re-runs the
same two lookups after acquiring the write lock, which in this sequential
rendering coincides with the fast path. -/
def PatternCache.Get (compile : String → Except String Pattern)
    (c : PatternCache) (t : String) :
    Except String Pattern × PatternCache × Bool :=
  match mapLookup c.patterns t with
  | some p => (.ok p, c, false)
  | none =>
    match mapLookup c.errors t with
    | some e => (.error e, c, false)
    | none =>
      match compile t with
      | .ok p => (.ok p, { c with patterns := (t, p) :: c.patterns }, true)
      | .error e => (.error e, { c with errors := (t, e) :: c.errors }, true)

/-- A sequence of further Get calls against the cache, keeping only the
resulting state. -/
def runGets (compile : String → Except String Pattern)
    (c : PatternCache) (ts : List String) : PatternCache :=
  ts.foldl (fun c t => (PatternCache.Get compile c t).2.1) c

mutual

/-- Matching a non-nil context never aborts: every matcher yields a Boolean
verdict. Proved mutually with the corresponding facts for the AND and OR
loops. -/
theorem matchOpt_isSome : ∀ (m : Matcher) (ctx : MatchContext),
    (Matcher.matchOpt m (some ctx)).isSome
  | .repoPattern _, _ => by
    simp only [Matcher.matchOpt]; repeat' split
    all_goals simp
  | .remote _, _ => by
    simp only [Matcher.matchOpt]; repeat' split
    all_goals simp
  | .branchPattern _, _ => by
    simp only [Matcher.matchOpt]; repeat' split
    all_goals simp
  | .filePattern _, _ => by
    simp only [Matcher.matchOpt]; repeat' split
    all_goals simp
  | .contentPattern _, _ => by
    simp only [Matcher.matchOpt]; repeat' split
    all_goals simp
  | .commandPattern _, _ => by
    simp only [Matcher.matchOpt]; repeat' split
    all_goals simp
  | .validatorType _, _ => by
    simp only [Matcher.matchOpt]; repeat' split
    all_goals simp
  | .toolType _, _ => by
    simp only [Matcher.matchOpt]; repeat' split
    all_goals simp
  | .eventType _, _ => by
    simp only [Matcher.matchOpt]; repeat' split
    all_goals simp
  | .composite _ [], _ => by
    simp [Matcher.matchOpt]
  | .composite .and (m :: rest), ctx => by
    simp only [Matcher.matchOpt]
    exact andList_isSome (m :: rest) ctx
  | .composite .or (m :: rest), ctx => by
    simp only [Matcher.matchOpt]
    exact orList_isSome (m :: rest) ctx
  | .composite .not (m :: rest), ctx => by
    simp only [Matcher.matchOpt]
    have hs := matchOpt_isSome m ctx
    rcases hm : Matcher.matchOpt m (some ctx) with _ | b
    · rw [hm] at hs; simp at hs
    · simp [hm]
  | .always, _ => by simp [Matcher.matchOpt]
  | .never, _ => by simp [Matcher.matchOpt]

/-- The AND loop over a non-nil context never aborts. -/
theorem andList_isSome : ∀ (ms : List Matcher) (ctx : MatchContext),
    (Matcher.andList ms (some ctx)).isSome
  | [], _ => by simp [Matcher.andList]
  | m :: rest, ctx => by
    simp only [Matcher.andList]
    have hs := matchOpt_isSome m ctx
    rcases hm : Matcher.matchOpt m (some ctx) with _ | b
    · rw [hm] at hs; simp at hs
    · cases b
      · simp
      · exact andList_isSome rest ctx

/-- The OR loop over a non-nil context never aborts. -/
theorem orList_isSome : ∀ (ms : List Matcher) (ctx : MatchContext),
    (Matcher.orList ms (some ctx)).isSome
  | [], _ => by simp [Matcher.orList]
  | m :: rest, ctx => by
    simp only [Matcher.orList]
    have hs := matchOpt_isSome m ctx
    rcases hm : Matcher.matchOpt m (some ctx) with _ | b
    · rw [hm] at hs; simp at hs
    · cases b
      · exact orList_isSome rest ctx
      · simp

end

/-- The context with every fact absent. -/
def ctxEmpty : MatchContext := ⟨"", none, none, "", none⟩

/-- A nonempty composite with the AND operation runs the AND loop. -/
theorem matchOpt_composite_and (l : List Matcher) (octx : Option MatchContext)
    (h : l ≠ []) :
    Matcher.matchOpt (.composite .and l) octx = Matcher.andList l octx := by
  cases l with
  | nil => exact absurd rfl h
  | cons x xs => simp [Matcher.matchOpt]

/-- A nonempty composite with the OR operation runs the OR loop. -/
theorem matchOpt_composite_or (l : List Matcher) (octx : Option MatchContext)
    (h : l ≠ []) :
    Matcher.matchOpt (.composite .or l) octx = Matcher.orList l octx := by
  cases l with
  | nil => exact absurd rfl h
  | cons x xs => simp [Matcher.matchOpt]

/-- The AND loop stops with false at the first false child, whatever follows
it. -/
theorem andList_append_false (post : List Matcher) (octx : Option MatchContext)
    (m : Matcher) (hm : Matcher.matchOpt m octx = some false) :
    ∀ pre : List Matcher, (∀ x ∈ pre, Matcher.matchOpt x octx = some true) →
    Matcher.andList (pre ++ m :: post) octx = some false
  | [], _ => by simp [Matcher.andList, hm]
  | p :: pre, hpre => by
    have hp : Matcher.matchOpt p octx = some true := hpre p (by simp)
    simp only [List.cons_append, Matcher.andList, hp]
    exact andList_append_false post octx m hm pre (fun x hx => hpre x (by simp [hx]))

/-- The OR loop stops with true at the first true child, whatever follows
it. -/
theorem orList_append_true (post : List Matcher) (octx : Option MatchContext)
    (m : Matcher) (hm : Matcher.matchOpt m octx = some true) :
    ∀ pre : List Matcher, (∀ x ∈ pre, Matcher.matchOpt x octx = some false) →
    Matcher.orList (pre ++ m :: post) octx = some true
  | [], _ => by simp [Matcher.orList, hm]
  | p :: pre, hpre => by
    have hp : Matcher.matchOpt p octx = some false := hpre p (by simp)
    simp only [List.cons_append, Matcher.orList, hp]
    exact orList_append_true post octx m hm pre (fun x hx => hpre x (by simp [hx]))

/-- Claim C2 (amended): over any context, an AND composite with zero
children matches; an OR composite with zero children also matches every
context (the empty-children guard of CompositeMatcher.Match precedes the
operator switch); an AND composite returns false as soon as a child returns
false, irrespective of the children after it; an OR composite returns true
as soon as a child returns true, irrespective of the children after it; a
NOT composite over one child inverts the verdict of that child. -/
theorem C2_composite_semantics :
    (∀ octx : Option MatchContext,
      Matcher.matchOpt (.composite .and []) octx = some true) ∧
    (∀ octx : Option MatchContext,
      Matcher.matchOpt (.composite .or []) octx = some true) ∧
    (∀ (pre : List Matcher) (m : Matcher) (post : List Matcher)
      (octx : Option MatchContext),
      (∀ x ∈ pre, Matcher.matchOpt x octx = some true) →
      Matcher.matchOpt m octx = some false →
      Matcher.matchOpt (.composite .and (pre ++ m :: post)) octx = some false) ∧
    (∀ (pre : List Matcher) (m : Matcher) (post : List Matcher)
      (octx : Option MatchContext),
      (∀ x ∈ pre, Matcher.matchOpt x octx = some false) →
      Matcher.matchOpt m octx = some true →
      Matcher.matchOpt (.composite .or (pre ++ m :: post)) octx = some true) ∧
    (∀ (m : Matcher) (octx : Option MatchContext) (b : Bool),
      Matcher.matchOpt m octx = some b →
      Matcher.matchOpt (.composite .not [m]) octx = some (!b)) := by
  refine ⟨fun octx => by simp [Matcher.matchOpt],
    fun octx => by simp [Matcher.matchOpt], ?_, ?_, ?_⟩
  · intro pre m post octx hpre hm
    rw [matchOpt_composite_and _ _ (by simp)]
    exact andList_append_false post octx m hm pre hpre
  · intro pre m post octx hpre hm
    rw [matchOpt_composite_or _ _ (by simp)]
    exact orList_append_true post octx m hm pre hpre
  · intro m octx b hm
    simp [Matcher.matchOpt, hm]

/-- Claim C2, counterexample to the original wording: an OR composite with
zero children matches the all-absent context (it matches every context),
instead of matching no context. -/
theorem C2_counterexample :
    Matcher.matchOpt (.composite .or []) (some ctxEmpty) = some true := by
  simp [Matcher.matchOpt]

/-- Claim C2, witness: the amended theorem applied at concrete inputs — an
AND composite whose only child is the NeverMatcher returns false on the
all-absent context. -/
theorem C2_witness :
    Matcher.matchOpt (.composite .and [Matcher.never]) (some ctxEmpty) = some false :=
  C2_composite_semantics.2.2.1 [] Matcher.never [] (some ctxEmpty)
    (by intro x hx; simp at hx) (by simp [Matcher.matchOpt])

/-- Claim C6: the validator-type matcher configured with the universal
wildcard matches every context, even one whose validator type is empty; with
any other configured value it returns false on an empty context validator
type; configured with git.* it matches exactly the context validator types
starting with git. (category-prefix semantics), in particular git.push and
git.commit but not file.markdown. -/
theorem C6_validator_type_matcher :
    (∀ ctx : MatchContext,
      Matcher.matchOpt (.validatorType ValidatorAll) (some ctx) = some true) ∧
    (∀ (v : String) (ctx : MatchContext), v ≠ ValidatorAll →
      ctx.ValidatorType = "" →
      Matcher.matchOpt (.validatorType v) (some ctx) = some false) ∧
    (∀ ctx : MatchContext,
      Matcher.matchOpt (.validatorType "git.*") (some ctx) = some true ↔
        strStartsWith ctx.ValidatorType "git." = true) ∧
    Matcher.matchOpt (.validatorType "git.*") (some (minimalCtx "git.push")) = some true ∧
    Matcher.matchOpt (.validatorType "git.*") (some (minimalCtx "git.commit")) = some true ∧
    Matcher.matchOpt (.validatorType "git.*") (some (minimalCtx "file.markdown")) = some false := by
  have hAll : ∀ (v : String), v = ValidatorAll →
      ∀ octx, Matcher.matchOpt (.validatorType v) octx = some true := by
    intro v hv octx
    simp [Matcher.matchOpt, hv]
  have hgit : ("git.*" == ValidatorAll) = false := by decide
  have he : strEndsWith "git.*" ".*" = true := by decide
  have hd : strDropRight "git.*" 2 ++ "." = "git." := by decide
  have hmain : ∀ ctx : MatchContext,
      Matcher.matchOpt (.validatorType "git.*") (some ctx) = some true ↔
        strStartsWith ctx.ValidatorType "git." = true := by
    intro ctx
    simp only [Matcher.matchOpt, hgit, Bool.false_eq_true, if_false]
    by_cases h1 : ctx.ValidatorType = ""
    · simp [h1]
      decide
    · by_cases h2 : ctx.ValidatorType = "git.*"
      · simp [h1, h2]
        decide
      · simp [h1, h2, he, hd]
  refine ⟨fun ctx => hAll ValidatorAll rfl (some ctx), ?_, hmain, ?_, ?_, ?_⟩
  · intro v ctx hv hvt
    have hb : (v == ValidatorAll) = false := by
      simp [hv]
    simp [Matcher.matchOpt, hb, hvt]
  · exact (hmain (minimalCtx "git.push")).2 (by decide)
  · exact (hmain (minimalCtx "git.commit")).2 (by decide)
  · have := matchOpt_isSome (.validatorType "git.*") (minimalCtx "file.markdown")
    rcases hb : Matcher.matchOpt (.validatorType "git.*") (some (minimalCtx "file.markdown")) with _ | b
    · rw [hb] at this; simp at this
    · cases b
      · rfl
      · have := (hmain (minimalCtx "file.markdown")).1 hb
        rw [show (minimalCtx "file.markdown").ValidatorType = "file.markdown" from rfl] at this
        exact absurd this (by decide)

/-- Claim C6, witness: a matcher configured with git.push (not the universal
wildcard) returns false on the all-absent context, whose validator type is
the empty string. -/
theorem C6_witness :
    Matcher.matchOpt (.validatorType "git.push") (some ctxEmpty) = some false :=
  C6_validator_type_matcher.2.1 "git.push" ctxEmpty (by decide) rfl

/-- Claim C10 (amended): the AlwaysMatcher and NeverMatcher are total even
on the nil match context, returning true and false; every leaf matcher
dereferences the nil context and aborts — except a validator-type matcher
configured with the universal wildcard, which returns true before touching
the context; on a non-nil context no matcher aborts. -/
theorem C10_nil_context_safety :
    (∀ octx : Option MatchContext, Matcher.matchOpt .always octx = some true) ∧
    (∀ octx : Option MatchContext, Matcher.matchOpt .never octx = some false) ∧
    (∀ r, Matcher.matchOpt (.remote r) none = none) ∧
    (∀ p, Matcher.matchOpt (.repoPattern p) none = none) ∧
    (∀ p, Matcher.matchOpt (.branchPattern p) none = none) ∧
    (∀ p, Matcher.matchOpt (.filePattern p) none = none) ∧
    (∀ p, Matcher.matchOpt (.contentPattern p) none = none) ∧
    (∀ p, Matcher.matchOpt (.commandPattern p) none = none) ∧
    (∀ t, Matcher.matchOpt (.toolType t) none = none) ∧
    (∀ t, Matcher.matchOpt (.eventType t) none = none) ∧
    (∀ v, v ≠ ValidatorAll → Matcher.matchOpt (.validatorType v) none = none) ∧
    Matcher.matchOpt (.validatorType ValidatorAll) none = some true ∧
    (∀ (m : Matcher) (ctx : MatchContext), (Matcher.matchOpt m (some ctx)).isSome) := by
  refine ⟨fun octx => by simp [Matcher.matchOpt],
    fun octx => by simp [Matcher.matchOpt],
    fun r => by simp [Matcher.matchOpt],
    fun p => by simp [Matcher.matchOpt],
    fun p => by simp [Matcher.matchOpt],
    fun p => by simp [Matcher.matchOpt],
    fun p => by simp [Matcher.matchOpt],
    fun p => by simp [Matcher.matchOpt],
    fun t => by simp [Matcher.matchOpt],
    fun t => by simp [Matcher.matchOpt],
    ?_, by simp [Matcher.matchOpt], matchOpt_isSome⟩
  intro v hv
  have hb : (v == ValidatorAll) = false := by simp [hv]
  simp [Matcher.matchOpt, hb]

/-- Claim C10, counterexample to the original wording: the validator-type
leaf matcher configured with the universal wildcard is defined on the nil
context (it returns true without dereferencing it), so its Match is not
restricted to non-nil contexts. -/
theorem C10_counterexample :
    Matcher.matchOpt (.validatorType "*") none = some true := by
  simp [Matcher.matchOpt, ValidatorAll]

/-- Claim C10, witness: the amended theorem applied at concrete inputs — a
validator-type matcher configured with git.push aborts on the nil
context. -/
theorem C10_witness :
    Matcher.matchOpt (.validatorType "git.push") none = none :=
  C10_nil_context_safety.2.2.2.2.2.2.2.2.2.2.1 "git.push" (by decide)

/-- The fact the repository matcher consults: the git repo root when
present and non-empty. -/
def repoFact (ctx : MatchContext) : Option String :=
  match ctx.GitContext with
  | some g => if g.RepoRoot = "" then none else some g.RepoRoot
  | none => none

/-- The fact the branch matcher consults: the git branch when present and
non-empty. -/
def branchFact (ctx : MatchContext) : Option String :=
  match ctx.GitContext with
  | some g => if g.Branch = "" then none else some g.Branch
  | none => none

/-- The fact the file matcher consults: the file context path when present
and non-empty, otherwise the hook-context file path when a hook context is
present. -/
def fileFact (ctx : MatchContext) : Option String :=
  match ctx.FileContext with
  | some f =>
    if f.Path = "" then ctx.HookContext.map HookContext.GetFilePath
    else some f.Path
  | none => ctx.HookContext.map HookContext.GetFilePath

/-- The fact the content matcher consults: the file context content when
present and non-empty, otherwise the hook-context content when a hook
context is present. -/
def contentFact (ctx : MatchContext) : Option String :=
  match ctx.FileContext with
  | some f =>
    if f.Content = "" then ctx.HookContext.map HookContext.GetContent
    else some f.Content
  | none => ctx.HookContext.map HookContext.GetContent

/-- The fact the command matcher consults: the raw command when non-empty,
otherwise the hook-context command when a hook context is present. -/
def commandFact (ctx : MatchContext) : Option String :=
  if ctx.Command = "" then ctx.HookContext.map HookContext.GetCommand
  else some ctx.Command

/-- Claim C7 (amended): each pattern-backed matcher returns true exactly
when the fact it consults is available and the compiled pattern matches it;
for the repository and branch matchers the fact is available only when
non-empty, while for the file, content and command matchers the hook-context
fallback value is matched as is, even when it is the empty string; when the
fact is entirely absent every pattern-backed matcher returns false
(fail-closed). -/
theorem C7_pattern_matchers :
    (∀ (p : Pattern) (ctx : MatchContext),
      Matcher.matchOpt (.repoPattern p) (some ctx) = some true ↔
        ∃ s, repoFact ctx = some s ∧ p.Match s = true) ∧
    (∀ (p : Pattern) (ctx : MatchContext),
      Matcher.matchOpt (.branchPattern p) (some ctx) = some true ↔
        ∃ s, branchFact ctx = some s ∧ p.Match s = true) ∧
    (∀ (p : Pattern) (ctx : MatchContext),
      Matcher.matchOpt (.filePattern p) (some ctx) = some true ↔
        ∃ s, fileFact ctx = some s ∧ p.Match s = true) ∧
    (∀ (p : Pattern) (ctx : MatchContext),
      Matcher.matchOpt (.contentPattern p) (some ctx) = some true ↔
        ∃ s, contentFact ctx = some s ∧ p.Match s = true) ∧
    (∀ (p : Pattern) (ctx : MatchContext),
      Matcher.matchOpt (.commandPattern p) (some ctx) = some true ↔
        ∃ s, commandFact ctx = some s ∧ p.Match s = true) ∧
    (∀ (p : Pattern) (ctx : MatchContext), repoFact ctx = none →
      Matcher.matchOpt (.repoPattern p) (some ctx) = some false) ∧
    (∀ (p : Pattern) (ctx : MatchContext), branchFact ctx = none →
      Matcher.matchOpt (.branchPattern p) (some ctx) = some false) ∧
    (∀ (p : Pattern) (ctx : MatchContext), fileFact ctx = none →
      Matcher.matchOpt (.filePattern p) (some ctx) = some false) ∧
    (∀ (p : Pattern) (ctx : MatchContext), contentFact ctx = none →
      Matcher.matchOpt (.contentPattern p) (some ctx) = some false) ∧
    (∀ (p : Pattern) (ctx : MatchContext), commandFact ctx = none →
      Matcher.matchOpt (.commandPattern p) (some ctx) = some false) := by
  have hrepo : ∀ (p : Pattern) (ctx : MatchContext),
      Matcher.matchOpt (.repoPattern p) (some ctx) =
        some ((repoFact ctx).elim false p.Match) := by
    intro p ctx
    simp only [Matcher.matchOpt, repoFact]
    rcases ctx.GitContext with _ | g
    · simp
    · by_cases h : g.RepoRoot = "" <;> simp [h]
  have hbranch : ∀ (p : Pattern) (ctx : MatchContext),
      Matcher.matchOpt (.branchPattern p) (some ctx) =
        some ((branchFact ctx).elim false p.Match) := by
    intro p ctx
    simp only [Matcher.matchOpt, branchFact]
    rcases ctx.GitContext with _ | g
    · simp
    · by_cases h : g.Branch = "" <;> simp [h]
  have hfile : ∀ (p : Pattern) (ctx : MatchContext),
      Matcher.matchOpt (.filePattern p) (some ctx) =
        some ((fileFact ctx).elim false p.Match) := by
    intro p ctx
    simp only [Matcher.matchOpt, fileFact]
    rcases ctx.FileContext with _ | f <;> rcases ctx.HookContext with _ | h
    · simp
    · simp
    · by_cases hp : f.Path = "" <;> simp [hp]
    · by_cases hp : f.Path = "" <;> simp [hp]
  have hcontent : ∀ (p : Pattern) (ctx : MatchContext),
      Matcher.matchOpt (.contentPattern p) (some ctx) =
        some ((contentFact ctx).elim false p.Match) := by
    intro p ctx
    simp only [Matcher.matchOpt, contentFact]
    rcases ctx.FileContext with _ | f <;> rcases ctx.HookContext with _ | h
    · simp
    · simp
    · by_cases hp : f.Content = "" <;> simp [hp]
    · by_cases hp : f.Content = "" <;> simp [hp]
  have hcommand : ∀ (p : Pattern) (ctx : MatchContext),
      Matcher.matchOpt (.commandPattern p) (some ctx) =
        some ((commandFact ctx).elim false p.Match) := by
    intro p ctx
    simp only [Matcher.matchOpt, commandFact]
    rcases ctx.HookContext with _ | h
    · by_cases hp : ctx.Command = "" <;> simp [hp]
    · by_cases hp : ctx.Command = "" <;> simp [hp]
  have elimIff : ∀ (p : Pattern) (o : Option String),
      (some (o.elim false p.Match) = some true ↔
        ∃ s, o = some s ∧ p.Match s = true) := by
    intro p o
    cases o <;> simp
  refine ⟨fun p ctx => by rw [hrepo]; exact elimIff p _,
    fun p ctx => by rw [hbranch]; exact elimIff p _,
    fun p ctx => by rw [hfile]; exact elimIff p _,
    fun p ctx => by rw [hcontent]; exact elimIff p _,
    fun p ctx => by rw [hcommand]; exact elimIff p _,
    fun p ctx h => by rw [hrepo, h]; rfl,
    fun p ctx h => by rw [hbranch, h]; rfl,
    fun p ctx h => by rw [hfile, h]; rfl,
    fun p ctx h => by rw [hcontent, h]; rfl,
    fun p ctx h => by rw [hcommand, h]; rfl⟩

/-- The context of the C7 counterexample: no file context, a hook context
whose file path is empty. -/
def cex7 : MatchContext := ⟨"", none, none, "", some ⟨"", "", "", "", ""⟩⟩

/-- Claim C7, counterexample to the original wording: with a pattern that
matches every string (such as the compiled regex .*), a file matcher on a
context with no file context and an empty hook-context file path returns
true, although the consulted fact is not non-empty — the iff of the original
claim fails at this input. -/
theorem C7_counterexample :
    ¬ (Matcher.matchOpt (.filePattern patternMatchAll) (some cex7) = some true ↔
      ∃ s, fileFact cex7 = some s ∧ s ≠ "" ∧ patternMatchAll.Match s = true) := by
  intro h
  have hl : Matcher.matchOpt (.filePattern patternMatchAll) (some cex7) = some true := by
    simp [Matcher.matchOpt, cex7, patternMatchAll]
  obtain ⟨s, hs, hne, _⟩ := h.1 hl
  have : fileFact cex7 = some "" := by simp [fileFact, cex7, HookContext.GetFilePath]
  rw [this] at hs
  exact hne (Option.some.injEq .. ▸ hs).symm

/-- Claim C7, witness: the amended theorem applied at concrete inputs — a
repository matcher on the all-absent context returns false. -/
theorem C7_witness :
    Matcher.matchOpt (.repoPattern patternMatchAll) (some ctxEmpty) = some false :=
  C7_pattern_matchers.2.2.2.2.2.1 patternMatchAll ctxEmpty (by simp [repoFact, ctxEmpty])

/-- A cache hit on the pattern map returns the cached pattern, leaves the
cache unchanged and does not invoke the compiler. -/
theorem get_hit_pattern (compile : String → Except String Pattern)
    (c : PatternCache) (t : String) (p : Pattern)
    (h : mapLookup c.patterns t = some p) :
    PatternCache.Get compile c t = (.ok p, c, false) := by
  simp [PatternCache.Get, h]

/-- A cache hit on the error map returns the cached error, leaves the cache
unchanged and does not invoke the compiler. -/
theorem get_hit_error (compile : String → Except String Pattern)
    (c : PatternCache) (t : String) (e : String)
    (hp : mapLookup c.patterns t = none)
    (he : mapLookup c.errors t = some e) :
    PatternCache.Get compile c t = (.error e, c, false) := by
  simp [PatternCache.Get, hp, he]

/-- After any Get for text t, the outcome for t is committed in the cache:
either the returned pattern sits in the pattern map, or the returned error
sits in the error map while the pattern map has no entry for t. -/
theorem get_commits (compile : String → Except String Pattern)
    (c : PatternCache) (t : String) :
    (∃ p, (PatternCache.Get compile c t).1 = .ok p ∧
      mapLookup (PatternCache.Get compile c t).2.1.patterns t = some p) ∨
    (∃ e, (PatternCache.Get compile c t).1 = .error e ∧
      mapLookup (PatternCache.Get compile c t).2.1.patterns t = none ∧
      mapLookup (PatternCache.Get compile c t).2.1.errors t = some e) := by
  rcases hp : mapLookup c.patterns t with _ | p
  · rcases he : mapLookup c.errors t with _ | e
    · rcases hc : compile t with e | p
      · exact Or.inr ⟨e, by simp [PatternCache.Get, hp, he, hc, mapLookup]⟩
      · exact Or.inl ⟨p, by simp [PatternCache.Get, hp, he, hc, mapLookup]⟩
    · exact Or.inr ⟨e, by simp [PatternCache.Get, hp, he]⟩
  · exact Or.inl ⟨p, by simp [PatternCache.Get, hp]⟩

/-- A Get for any text preserves an existing pattern-map entry. -/
theorem get_preserves_pattern (compile : String → Except String Pattern)
    (c : PatternCache) (t u : String) (p : Pattern)
    (h : mapLookup c.patterns t = some p) :
    mapLookup (PatternCache.Get compile c u).2.1.patterns t = some p := by
  rcases hp : mapLookup c.patterns u with _ | q
  · rcases he : mapLookup c.errors u with _ | e
    · rcases hc : compile u with e | q
      · simp [PatternCache.Get, hp, he, hc, h]
      · have hne : (u == t) = false := by
          by_cases hu : u = t
          · subst hu; rw [h] at hp; cases hp
          · simp [hu]
        simp [PatternCache.Get, hp, he, hc, mapLookup, hne, h]
    · simp [PatternCache.Get, hp, he, h]
  · simp [PatternCache.Get, hp, h]

/-- A Get for any text preserves an existing error-map entry together with
the absence of a pattern-map entry. -/
theorem get_preserves_error (compile : String → Except String Pattern)
    (c : PatternCache) (t u : String) (e : String)
    (hpn : mapLookup c.patterns t = none)
    (h : mapLookup c.errors t = some e) :
    mapLookup (PatternCache.Get compile c u).2.1.patterns t = none ∧
    mapLookup (PatternCache.Get compile c u).2.1.errors t = some e := by
  rcases hp : mapLookup c.patterns u with _ | q
  · rcases he : mapLookup c.errors u with _ | e'
    · rcases hc : compile u with e' | q
      · have hne : (u == t) = false := by
          by_cases hu : u = t
          · subst hu; rw [h] at he; cases he
          · simp [hu]
        simp [PatternCache.Get, hp, he, hc, mapLookup, hne, h, hpn]
      · have hne : (u == t) = false := by
          by_cases hu : u = t
          · subst hu; rw [hpn] at hp; rw [h] at he; cases he
          · simp [hu]
        simp [PatternCache.Get, hp, he, hc, mapLookup, hne, h, hpn]
    · simp [PatternCache.Get, hp, he, h, hpn]
  · simp [PatternCache.Get, hp, h, hpn]

/-- Any sequence of Get calls preserves an existing pattern-map entry. -/
theorem runGets_preserves_pattern (compile : String → Except String Pattern)
    (t : String) (p : Pattern) :
    ∀ (ts : List String) (c : PatternCache),
    mapLookup c.patterns t = some p →
    mapLookup (runGets compile c ts).patterns t = some p
  | [], _, h => h
  | u :: ts, c, h =>
    runGets_preserves_pattern compile t p ts _
      (get_preserves_pattern compile c t u p h)

/-- Any sequence of Get calls preserves an existing error-map entry together
with the absence of a pattern-map entry. -/
theorem runGets_preserves_error (compile : String → Except String Pattern)
    (t : String) (e : String) :
    ∀ (ts : List String) (c : PatternCache),
    mapLookup c.patterns t = none → mapLookup c.errors t = some e →
    mapLookup (runGets compile c ts).patterns t = none ∧
    mapLookup (runGets compile c ts).errors t = some e
  | [], _, hpn, h => ⟨hpn, h⟩
  | u :: ts, c, hpn, h =>
    runGets_preserves_error compile t e ts _
      (get_preserves_error compile c t u e hpn h).1
      (get_preserves_error compile c t u e hpn h).2

/-- Claim C3: once Get has returned an outcome for a pattern text (a
compiled pattern or a compile error), every later Get for the same text —
after any interleaved sequence of Get calls for arbitrary texts — returns
that same outcome, leaves the cache unchanged, and does not invoke the
underlying compiler, so compilation happens at most once per distinct
text. -/
theorem C3_pattern_cache_memoizes (compile : String → Except String Pattern)
    (c : PatternCache) (t : String) (ts : List String) :
    PatternCache.Get compile
        (runGets compile (PatternCache.Get compile c t).2.1 ts) t =
      ((PatternCache.Get compile c t).1,
        runGets compile (PatternCache.Get compile c t).2.1 ts, false) := by
  rcases get_commits compile c t with ⟨p, hr, hc⟩ | ⟨e, hr, hpn, hc⟩
  · have := runGets_preserves_pattern compile t p ts _ hc
    rw [get_hit_pattern compile _ t p this, hr]
  · have := runGets_preserves_error compile t e ts _ hpn hc
    rw [get_hit_error compile _ t e this.1 this.2, hr]

/-- The validator-type matcher semantics, written from the spec wording:
the universal wildcard matches everything; otherwise a non-empty target
matches on equality or under a category.* prefix pattern. -/
def specVTMatchesB (pat target : String) : Bool :=
  pat == ValidatorAll ||
    (target != "" &&
      (target == pat ||
        (strEndsWith pat ".*" && strStartsWith target (strDropRight pat 2 ++ "."))))

/-- The selection predicate of filterByValidator, written from the spec
wording: the rule applies when its validator-type condition is absent (nil
match block or empty field) or matches the given validator type. -/
def vtAppliesB (v : String) (cr : CompiledRule) : Bool :=
  match cr.Rule.Match with
  | none => true
  | some m => m.ValidatorType == "" || specVTMatchesB m.ValidatorType v

/-- Running the validator-type matcher on the minimal context agrees with
the spec-side matching predicate. -/
theorem vt_matcher_minimal (pat v : String) :
    (Matcher.matchOpt (.validatorType pat) (some (minimalCtx v)) == some true) =
      specVTMatchesB pat v := by
  by_cases h0 : pat = ValidatorAll
  · simp [Matcher.matchOpt, specVTMatchesB, h0]
  · have hb : (pat == ValidatorAll) = false := by simp [h0]
    by_cases h1 : v = ""
    · simp [Matcher.matchOpt, specVTMatchesB, hb, minimalCtx, h1]
    · have hv1 : (v != "") = true := by simp [h1]
      by_cases h2 : v = pat
      · subst h2
        simp [Matcher.matchOpt, specVTMatchesB, hb, minimalCtx, h1, hv1]
      · have hv2 : (v == pat) = false := by simp [h2]
        by_cases h3 : strEndsWith pat ".*" = true
        · simp [Matcher.matchOpt, specVTMatchesB, hb, minimalCtx, h1, h2, h3,
            hv1, hv2]
        · simp [Matcher.matchOpt, specVTMatchesB, hb, minimalCtx, h1, h2,
            hv1, hv2, Bool.eq_false_iff.2 h3]

/-- A shared concrete action for the example rules. -/
def ruleActionEx : RuleAction := ⟨.block, "m", "r"⟩

/-- Example rule with no validator-type condition. -/
def cr8A : CompiledRule := ⟨⟨"a", "", true, 0, none, some ruleActionEx⟩, .always⟩

/-- Example rule with validator-type condition git.*. -/
def cr8B : CompiledRule :=
  ⟨⟨"b", "", true, 0, some ⟨"git.*", "", "", "", "", "", "", "", ""⟩, some ruleActionEx⟩, .always⟩

/-- Example rule with validator-type condition file.markdown. -/
def cr8C : CompiledRule :=
  ⟨⟨"c", "", true, 0, some ⟨"file.markdown", "", "", "", "", "", "", "", ""⟩, some ruleActionEx⟩, .always⟩

/-- Example rule with no validator-type condition but disabled. -/
def cr8D : CompiledRule := ⟨⟨"d", "", false, 0, none, some ruleActionEx⟩, .always⟩

/-- Claim C8 (amended): FilterByValidator returns exactly those enabled
compiled rules whose validator-type condition is absent or matches the given
validator type under the validator-type matcher semantics; a nil registry
yields the empty list; in the example, for git.push the rule with no
condition and the rule with condition git.* are returned while the rule with
condition file.markdown is excluded. -/
theorem C8_filter_by_validator :
    (∀ (stop : Bool) (d : ActionType) (v : String),
      Evaluator.FilterByValidator ⟨none, stop, d⟩ v = []) ∧
    (∀ (reg : Registry) (stop : Bool) (d : ActionType) (v : String),
      Evaluator.FilterByValidator ⟨some reg, stop, d⟩ v =
        (Registry.GetEnabled reg).filter (vtAppliesB v)) ∧
    Evaluator.FilterByValidator ⟨some [cr8A, cr8B, cr8C], true, .allow⟩ "git.push" =
      [cr8A, cr8B] := by
  refine ⟨fun _ _ _ => rfl, ?_, rfl⟩
  intro reg stop d v
  simp only [Evaluator.FilterByValidator]
  by_cases hemp : (Registry.GetEnabled reg).isEmpty
  · rw [if_pos hemp]
    rw [List.isEmpty_iff] at hemp
    rw [hemp, List.filter_nil]
  · rw [if_neg hemp]
    apply List.filter_congr
    intro cr _
    rcases hm : cr.Rule.Match with _ | m
    · simp [vtAppliesB, hm]
    · by_cases hvt : m.ValidatorType = ""
      · simp [vtAppliesB, hm, hvt, specVTMatchesB]
      · have hb : (m.ValidatorType == "") = false := by simp [hvt]
        simp only [hm, hb, Bool.false_eq_true, if_false, vtAppliesB,
          Bool.false_or]
        exact vt_matcher_minimal m.ValidatorType v

/-- Claim C8, counterexample to the original wording: a disabled rule with
no validator-type condition is excluded by FilterByValidator, although it is
a compiled rule of the registry whose condition is absent. -/
theorem C8_counterexample :
    ¬ (Evaluator.FilterByValidator ⟨some [cr8D], true, .allow⟩ "git.push" =
      [cr8D].filter (vtAppliesB "git.push")) := by
  intro h
  exact absurd (congrArg List.length h) (by decide)

/-- Claim C8, witness: the amended theorem applied at concrete inputs — the
filter over a registry holding only the disabled rule returns nothing. -/
theorem C8_witness :
    Evaluator.FilterByValidator ⟨some [cr8D], true, .allow⟩ "git.push" =
      (Registry.GetEnabled [cr8D]).filter (vtAppliesB "git.push") :=
  C8_filter_by_validator.2.1 [cr8D] true .allow "git.push"

/-- The rule names stored in a registry, in order. -/
def regNames (r : Registry) : List String := r.map (fun cr => cr.Rule.Name)

/-- The registry invariant: rule names are unique and the rules are sorted
by descending priority then ascending name. -/
def RegInv (r : Registry) : Prop :=
  (regNames r).Nodup ∧ List.Sorted ruleLE r

/-- Sorting the rules yields a list sorted by the registry order. -/
theorem sortRules_sorted (l : Registry) : List.Sorted ruleLE (sortRules l) :=
  List.sorted_insertionSort ruleLE l

/-- Sorting the rules permutes them. -/
theorem sortRules_perm (l : Registry) : List.Perm (sortRules l) l :=
  List.perm_insertionSort ruleLE l

/-- Sorting preserves uniqueness of the stored names. -/
theorem sortRules_names_nodup (l : Registry) (h : (regNames l).Nodup) :
    (regNames (sortRules l)).Nodup := by
  have hp : List.Perm (List.map (fun cr : CompiledRule => cr.Rule.Name) (sortRules l))
      (List.map (fun cr : CompiledRule => cr.Rule.Name) l) :=
    (sortRules_perm l).map (fun cr : CompiledRule => cr.Rule.Name)
  exact hp.nodup_iff.2 h

/-- The effect of the replace-or-append step on the stored names. -/
def namesAdd (n : String) : List String → List String
  | [] => [n]
  | x :: xs => if x == n then n :: xs else x :: namesAdd n xs

/-- The names after a replace-or-append step are the names after the same
step on the name list. -/
theorem regNames_addToRules (cr : CompiledRule) :
    ∀ l : Registry, regNames (addToRules cr l) = namesAdd cr.Rule.Name (regNames l)
  | [] => rfl
  | x :: xs => by
    simp only [addToRules, regNames, List.map_cons, namesAdd]
    by_cases hx : (x.Rule.Name == cr.Rule.Name) = true
    · rw [if_pos hx, if_pos hx]
      simp [regNames]
    · rw [if_neg hx, if_neg hx]
      rw [List.map_cons]
      exact congrArg (x.Rule.Name :: ·) (regNames_addToRules cr xs)

/-- A name present after the name-level replace-or-append step is the new
name or one already present. -/
theorem mem_namesAdd (n m : String) :
    ∀ l : List String, m ∈ namesAdd n l → m = n ∨ m ∈ l := by
  intro l
  induction l with
  | nil =>
    intro h
    simp only [namesAdd, List.mem_singleton] at h
    exact Or.inl h
  | cons x xs ih =>
    intro h
    simp only [namesAdd] at h
    by_cases hx : (x == n) = true
    · rw [if_pos hx] at h
      rcases List.mem_cons.1 h with h | h
      · exact Or.inl h
      · exact Or.inr (List.mem_cons_of_mem x h)
    · rw [if_neg hx] at h
      rcases List.mem_cons.1 h with h | h
      · exact Or.inr (h ▸ List.mem_cons_self x xs)
      · rcases ih h with h' | h'
        · exact Or.inl h'
        · exact Or.inr (List.mem_cons_of_mem x h')

/-- The name-level replace-or-append step keeps the names unique. -/
theorem namesAdd_nodup (n : String) :
    ∀ l : List String, l.Nodup → (namesAdd n l).Nodup := by
  intro l
  induction l with
  | nil =>
    intro _
    simp [namesAdd]
  | cons x xs ih =>
    intro h
    rw [List.nodup_cons] at h
    simp only [namesAdd]
    by_cases hx : (x == n) = true
    · rw [if_pos hx]
      rw [List.nodup_cons]
      have hxe : x = n := by simpa using hx
      exact ⟨hxe ▸ h.1, h.2⟩
    · rw [if_neg hx]
      rw [List.nodup_cons]
      have hxe : ¬ x = n := by simpa using hx
      refine ⟨?_, ih h.2⟩
      intro hmem
      rcases mem_namesAdd n x xs hmem with h' | h'
      · exact hxe h'
      · exact h.1 h'

/-- Registry.Remove returns a sublist of the stored rules. -/
theorem remove_sublist : ∀ (l : Registry) (name : String),
    (Registry.Remove l name).2.Sublist l
  | [], _ => by simp [Registry.Remove]
  | cr :: rest, name => by
    simp only [Registry.Remove]
    by_cases h : (cr.Rule.Name == name) = true
    · rw [if_pos h]
      exact List.sublist_cons_self cr rest
    · rw [if_neg h]
      exact List.Sublist.cons₂ cr (remove_sublist rest name)

/-- Looking up the key just written by a map assignment yields the written
index. -/
theorem mapLookup_idxInsert_self : ∀ (m : List (String × Nat)) (k : String) (v : Nat),
    mapLookup (idxInsert m k v) k = some v
  | [], k, v => by simp [idxInsert, mapLookup]
  | (k', v') :: rest, k, v => by
    simp only [idxInsert]
    by_cases h : (k' == k) = true
    · rw [if_pos h]
      simp [mapLookup]
    · rw [if_neg h]
      simp only [mapLookup]
      rw [if_neg h]
      exact mapLookup_idxInsert_self rest k v

/-- Looking up a different key is unaffected by a map assignment. -/
theorem mapLookup_idxInsert_ne :
    ∀ (m : List (String × Nat)) (k : String) (v : Nat) (n : String), ¬ n = k →
    mapLookup (idxInsert m k v) n = mapLookup m n
  | [], k, v, n, hn => by
    simp only [idxInsert, mapLookup]
    rw [if_neg (by simp; exact fun h => hn h.symm)]
  | (k', v') :: rest, k, v, n, hn => by
    simp only [idxInsert]
    by_cases h : (k' == k) = true
    · have hk : k' = k := by simpa using h
      rw [if_pos h]
      simp only [mapLookup]
      rw [if_neg (by simp; exact fun hh => hn hh.symm),
        if_neg (by simp [hk]; exact fun hh => hn hh.symm)]
    · rw [if_neg h]
      simp only [mapLookup]
      by_cases h2 : (k' == n) = true
      · rw [if_pos h2, if_pos h2]
      · rw [if_neg h2, if_neg h2]
        exact mapLookup_idxInsert_ne rest k v n hn

/-- The name-to-index map is sound and complete for the processed prefix:
soundness of every binding against the full name list is preserved as the
loop of Registry.Merge walks the receiver rules, and at the end every stored
name has a binding. -/
theorem buildIdxFrom_ok :
    ∀ (suffix : List CompiledRule) (r : Registry) (i : Nat)
      (m : List (String × Nat)),
    r.drop i = suffix →
    (∀ n j, mapLookup m n = some j → (regNames r)[j]? = some n) →
    (∀ n, n ∈ regNames (r.take i) → (mapLookup m n).isSome) →
    (∀ n j, mapLookup (buildIdxFrom i suffix m) n = some j →
      (regNames r)[j]? = some n) ∧
    (∀ n, n ∈ regNames r → (mapLookup (buildIdxFrom i suffix m) n).isSome)
  | [], r, i, m, hdrop, h1, h2 => by
    refine ⟨h1, ?_⟩
    have hle : r.length ≤ i := List.drop_eq_nil_iff.1 hdrop
    have : r.take i = r := List.take_of_length_le hle
    rw [this] at h2
    exact h2
  | cr :: rest, r, i, m, hdrop, h1, h2 => by
    have hlt : i < r.length := by
      by_contra hge
      rw [List.drop_eq_nil_iff.2 (le_of_not_lt hge)] at hdrop
      cases hdrop
    have hcons := List.drop_eq_getElem_cons hlt
    rw [hdrop] at hcons
    have hcr : cr = r[i] := by
      exact (List.cons.injEq ..).mp hcons.symm |>.1.symm
    have hrest : r.drop (i + 1) = rest := by
      exact ((List.cons.injEq ..).mp hcons).2.symm
    have hgetn : (regNames r)[i]? = some cr.Rule.Name := by
      rw [show regNames r = r.map (fun c => c.Rule.Name) from rfl,
        List.getElem?_map]
      rw [List.getElem?_eq_getElem hlt]
      simp [hcr]
    refine buildIdxFrom_ok rest r (i + 1) (idxInsert m cr.Rule.Name i) hrest ?_ ?_
    · intro n j hl
      by_cases hn : n = cr.Rule.Name
      · subst hn
        rw [mapLookup_idxInsert_self] at hl
        cases hl
        exact hgetn
      · rw [mapLookup_idxInsert_ne m cr.Rule.Name i n hn] at hl
        exact h1 n j hl
    · intro n hn
      rw [List.take_succ] at hn
      rw [show regNames (r.take i ++ r[i]?.toList) =
        regNames (r.take i) ++ regNames r[i]?.toList from by
          simp [regNames]] at hn
      rcases List.mem_append.1 hn with hn | hn
      · by_cases hne : n = cr.Rule.Name
        · subst hne
          rw [mapLookup_idxInsert_self]
          rfl
        · rw [mapLookup_idxInsert_ne m cr.Rule.Name i n hne]
          exact h2 n hn
      · rw [List.getElem?_eq_getElem hlt] at hn
        simp only [Option.toList_some, regNames, List.map_cons, List.map_nil,
          List.mem_singleton] at hn
        rw [hn, ← hcr, mapLookup_idxInsert_self]
        rfl

/-- The map Registry.Merge builds over the receiver is sound and complete
for the receiver names. -/
theorem buildIdx_ok (r : Registry) :
    (∀ n j, mapLookup (buildIdx r) n = some j → (regNames r)[j]? = some n) ∧
    (∀ n, n ∈ regNames r → (mapLookup (buildIdx r) n).isSome) := by
  refine buildIdxFrom_ok r r 0 [] rfl ?_ ?_
  · intro n j h
    cases h
  · intro n h
    simp [regNames] at h

/-- Writing back the element a position already holds leaves a list
unchanged. -/
theorem set_self_of_getElem? {α : Type} (l : List α) (i : Nat) (a : α)
    (h : l[i]? = some a) : l.set i a = l := by
  apply List.ext_getElem?
  intro n
  by_cases hn : n = i
  · subst hn
    rw [List.getElem?_set_self]
    · rw [h]
    · rcases List.getElem?_eq_some_iff.1 h with ⟨hlt, _⟩
      exact hlt
  · rw [List.getElem?_set_ne (fun he => hn he.symm)]

/-- The merge loop of Registry.Merge keeps the stored names unique when the
name map is sound and complete for the accumulated rules. -/
theorem mergeLoop_nodup :
    ∀ (src : List CompiledRule) (acc : Registry) (m : List (String × Nat)),
    (regNames acc).Nodup →
    (∀ n j, mapLookup m n = some j → (regNames acc)[j]? = some n) →
    (∀ n, n ∈ regNames acc → (mapLookup m n).isSome) →
    (regNames (mergeLoop acc m src)).Nodup
  | [], _, _, hnd, _, _ => hnd
  | s :: rest, acc, m, hnd, h1, h2 => by
    rcases hl : mapLookup m s.Rule.Name with _ | i
    · simp only [mergeLoop, hl]
      have hmem : ¬ s.Rule.Name ∈ regNames acc := by
        intro hmem
        have := h2 s.Rule.Name hmem
        rw [hl] at this
        cases this
      have hnames : regNames (acc ++ [s]) = regNames acc ++ [s.Rule.Name] := by
        simp [regNames]
      refine mergeLoop_nodup rest (acc ++ [s]) (idxInsert m s.Rule.Name acc.length)
        ?_ ?_ ?_
      · rw [hnames]
        rw [List.nodup_append]
        exact ⟨hnd, List.nodup_singleton _, by
          intro n hn hns
          rw [List.mem_singleton] at hns
          exact hmem (hns ▸ hn)⟩
      · intro n j hlk
        rw [hnames]
        by_cases hn : n = s.Rule.Name
        · subst hn
          rw [mapLookup_idxInsert_self] at hlk
          cases hlk
          have hlen : (regNames acc).length = acc.length := List.length_map ..
          rw [← hlen, List.getElem?_append_right (le_refl _)]
          simp
        · rw [mapLookup_idxInsert_ne m s.Rule.Name acc.length n hn] at hlk
          have := h1 n j hlk
          rcases List.getElem?_eq_some_iff.1 this with ⟨hlt, _⟩
          rw [List.getElem?_append_left hlt]
          exact this
      · intro n hn
        rw [hnames] at hn
        by_cases hne : n = s.Rule.Name
        · subst hne
          rw [mapLookup_idxInsert_self]
          rfl
        · rw [mapLookup_idxInsert_ne m s.Rule.Name acc.length n hne]
          rcases List.mem_append.1 hn with hn | hn
          · exact h2 n hn
          · rw [List.mem_singleton] at hn
            exact absurd hn hne
    · simp only [mergeLoop, hl]
      have hget : (regNames acc)[i]? = some s.Rule.Name := h1 s.Rule.Name i hl
      have hnames : regNames (acc.set i s) = regNames acc := by
        rw [show regNames (acc.set i s) =
          (regNames acc).set i s.Rule.Name from List.map_set ..]
        exact set_self_of_getElem? (regNames acc) i s.Rule.Name hget
      refine mergeLoop_nodup rest (acc.set i s) m ?_ ?_ ?_
      · rw [hnames]
        exact hnd
      · intro n j hlk
        rw [hnames]
        exact h1 n j hlk
      · intro n hn
        rw [hnames] at hn
        exact h2 n hn

/-- Registry.Add either leaves the rules untouched (an error arm) or
replaces-or-appends the compiled rule and re-sorts. -/
theorem add_cases (compile compileRegex : String → Except String Pattern)
    (r : Registry) (rule : Option Rule) :
    (Registry.Add compile compileRegex r rule).2 = r ∨
    ∃ cr, (Registry.Add compile compileRegex r rule).2 =
      sortRules (addToRules cr r) := by
  rcases rule with _ | rule
  · exact Or.inl rfl
  · by_cases h1 : (rule.Name == "") = true
    · left
      simp [Registry.Add, h1]
    · rcases hA : rule.Action with _ | a
      · left
        simp [Registry.Add, h1, hA]
      · rcases hB : BuildMatcher compile compileRegex rule.Match with e | om
        · left
          simp [Registry.Add, h1, hA, hB]
        · right
          exact ⟨⟨rule, om.getD Matcher.always⟩, by simp [Registry.Add, h1, hA, hB]⟩

/-- A replace-or-append followed by the sort preserves the registry
invariant. -/
theorem RegInv_sort_addTo (cr : CompiledRule) (r : Registry) (h : RegInv r) :
    RegInv (sortRules (addToRules cr r)) := by
  constructor
  · apply sortRules_names_nodup
    rw [regNames_addToRules]
    exact namesAdd_nodup _ _ h.1
  · exact sortRules_sorted _

/-- A compiler stub used with rules that have no pattern conditions, for
which BuildMatcher never invokes compilation. -/
def unusedCompile : String → Except String Pattern := fun s => .error s

/-- First rule of the overwrite example: name r1, priority 10. -/
def r4a : Rule := ⟨"r1", "", true, 10, none, some ruleActionEx⟩

/-- Second rule of the overwrite example: name r1, priority 5. -/
def r4b : Rule := ⟨"r1", "", true, 5, none, some ruleActionEx⟩

/-- Claim C4: the empty registry satisfies the invariant, and Add (on
success or failure), Remove, Clear and Merge preserve it: rule names stay
unique and the rules stay sorted by descending priority then ascending
name; in particular, adding a rule named r1 with priority 10 and then a
rule named r1 with priority 5 leaves exactly one entry, named r1 with
priority 5. -/
theorem C4_registry_invariants :
    RegInv [] ∧
    (∀ (compile compileRegex : String → Except String Pattern) (r : Registry)
      (rule : Option Rule), RegInv r →
      RegInv (Registry.Add compile compileRegex r rule).2) ∧
    (∀ (r : Registry) (n : String), RegInv r →
      RegInv (Registry.Remove r n).2) ∧
    (∀ r : Registry, RegInv (Registry.Clear r)) ∧
    (∀ (r source : Registry), RegInv r →
      RegInv (Registry.Merge r source)) ∧
    (Registry.Add unusedCompile unusedCompile
        (Registry.Add unusedCompile unusedCompile [] (some r4a)).2
        (some r4b)).2.map (fun cr => (cr.Rule.Name, cr.Rule.Priority)) =
      [("r1", 5)] := by
  have hempty : RegInv [] := ⟨by simp [regNames], List.sorted_nil⟩
  refine ⟨hempty, ?_, ?_, fun _ => hempty, ?_, rfl⟩
  · intro compile compileRegex r rule h
    rcases add_cases compile compileRegex r rule with heq | ⟨cr, heq⟩
    · rw [heq]
      exact h
    · rw [heq]
      exact RegInv_sort_addTo cr r h
  · intro r n h
    have hsub := remove_sublist r n
    have hmap : (List.map (fun cr : CompiledRule => cr.Rule.Name)
        (Registry.Remove r n).2).Sublist
        (List.map (fun cr : CompiledRule => cr.Rule.Name) r) :=
      hsub.map (fun cr : CompiledRule => cr.Rule.Name)
    constructor
    · exact h.1.sublist hmap
    · exact h.2.sublist hsub
  · intro r source h
    constructor
    · apply sortRules_names_nodup
      exact mergeLoop_nodup source r (buildIdx r) h.1 (buildIdx_ok r).1
        (buildIdx_ok r).2
    · exact sortRules_sorted _

/-- Claim C4, witness: the theorem applied at concrete inputs — adding the
first example rule to the empty registry preserves the invariant. -/
theorem C4_witness :
    RegInv (Registry.Add unusedCompile unusedCompile [] (some r4a)).2 :=
  C4_registry_invariants.2.1 unusedCompile unusedCompile [] (some r4a)
    ⟨by simp [regNames], List.sorted_nil⟩

/-- Claim C5: whenever Registry.Add reports an error (nil rule, empty name,
nil action, or a matcher compile failure), the registry contents after the
call are exactly the contents before the call. -/
theorem C5_add_error_no_mutation
    (compile compileRegex : String → Except String Pattern)
    (r : Registry) (rule : Option Rule) (e : String)
    (h : (Registry.Add compile compileRegex r rule).1 = some e) :
    (Registry.Add compile compileRegex r rule).2 = r := by
  rcases rule with _ | rule
  · rfl
  · by_cases h1 : (rule.Name == "") = true
    · simp [Registry.Add, h1]
    · rcases hA : rule.Action with _ | a
      · simp [Registry.Add, h1, hA]
      · rcases hB : BuildMatcher compile compileRegex rule.Match with e' | om
        · simp [Registry.Add, h1, hA, hB]
        · simp [Registry.Add, h1, hA, hB] at h

/-- Claim C5, witness: the theorem applied at concrete inputs — adding the
nil rule fails and leaves the empty registry empty. -/
theorem C5_witness :
    (Registry.Add unusedCompile unusedCompile [] none).2 = [] :=
  C5_add_error_no_mutation unusedCompile unusedCompile [] none
    "rule cannot be nil" rfl

/-- The Boolean match test the evaluator loop performs on one compiled rule
against a non-nil context. -/
def matchesCtx (ctx : MatchContext) (cr : CompiledRule) : Bool :=
  match Matcher.matchOpt cr.Matcher (some ctx) with
  | some true => true
  | _ => false

/-- When no enabled rule matches, the evaluator loop returns the unmatched
result with the default action. -/
theorem evalFirst_of_find_none (d : ActionType) (ctx : MatchContext) :
    ∀ l : Registry, l.find? (matchesCtx ctx) = none →
    evalFirst d ctx l = some (unmatched d)
  | [], _ => rfl
  | cr :: rest, hf => by
    rw [List.find?_cons] at hf
    rcases hb : Matcher.matchOpt cr.Matcher (some ctx) with _ | b
    · have := matchOpt_isSome cr.Matcher ctx
      rw [hb] at this
      cases this
    · cases b
      · have hm : matchesCtx ctx cr = false := by simp [matchesCtx, hb]
        rw [hm] at hf
        simp only [evalFirst, hb]
        exact evalFirst_of_find_none d ctx rest hf
      · have hm : matchesCtx ctx cr = true := by simp [matchesCtx, hb]
        rw [hm] at hf
        cases hf

/-- When some enabled rule matches, the evaluator loop returns the matched
result built from the first matching rule, provided every walked rule
carries an action. -/
theorem evalFirst_of_find_some (d : ActionType) (ctx : MatchContext) :
    ∀ (l : Registry) (cr : CompiledRule),
    (∀ x ∈ l, x.Rule.Action.isSome) →
    l.find? (matchesCtx ctx) = some cr →
    ∃ a, cr.Rule.Action = some a ∧
      evalFirst d ctx l =
        some ⟨true, some cr.Rule, a.Type', a.Message, a.Reference⟩
  | [], cr, _, hf => by cases hf
  | x :: rest, cr, hA, hf => by
    rw [List.find?_cons] at hf
    rcases hb : Matcher.matchOpt x.Matcher (some ctx) with _ | b
    · have := matchOpt_isSome x.Matcher ctx
      rw [hb] at this
      cases this
    · cases b
      · have hm : matchesCtx ctx x = false := by simp [matchesCtx, hb]
        rw [hm] at hf
        have hrec := evalFirst_of_find_some d ctx rest cr
          (fun y hy => hA y (List.mem_cons_of_mem x hy)) hf
        rcases hrec with ⟨a, ha, he⟩
        refine ⟨a, ha, ?_⟩
        simp only [evalFirst, hb]
        exact he
      · have hm : matchesCtx ctx x = true := by simp [matchesCtx, hb]
        rw [hm] at hf
        have hx : cr = x := by
          cases hf
          rfl
        subst hx
        have hs := hA cr (List.mem_cons_self cr rest)
        rcases hact : cr.Rule.Action with _ | a
        · rw [hact] at hs
          cases hs
        · refine ⟨a, rfl, ?_⟩
          simp only [evalFirst, hb, hact]

/-- Every rule of the enabled slice is a rule of the registry. -/
theorem mem_of_mem_getEnabled (reg : Registry) (cr : CompiledRule)
    (h : cr ∈ Registry.GetEnabled reg) : cr ∈ reg :=
  List.mem_of_mem_filter h

/-- Claim C1: Evaluate never aborts and returns, for a nil registry, an
empty registry, or a registry none of whose enabled rules match, the
unmatched result carrying the default action; otherwise the matched result
built from the first matching rule of the enabled slice (its action,
message and reference); and for a registry satisfying the invariant the
enabled slice is walked in sorted order (descending priority then ascending
name). Rules reaching the registry through Add always carry an action,
which the action-presence hypothesis reflects. -/
theorem C1_evaluate_first_match :
    (∀ (stop : Bool) (d : ActionType) (ctx : MatchContext),
      Evaluator.Evaluate ⟨none, stop, d⟩ ctx = some (unmatched d)) ∧
    (∀ (stop : Bool) (d : ActionType) (ctx : MatchContext),
      Evaluator.Evaluate ⟨some [], stop, d⟩ ctx = some (unmatched d)) ∧
    (∀ (reg : Registry) (stop : Bool) (d : ActionType) (ctx : MatchContext),
      (Registry.GetEnabled reg).find? (matchesCtx ctx) = none →
      Evaluator.Evaluate ⟨some reg, stop, d⟩ ctx = some (unmatched d)) ∧
    (∀ (reg : Registry) (stop : Bool) (d : ActionType) (ctx : MatchContext)
      (cr : CompiledRule),
      (∀ x ∈ reg, x.Rule.Action.isSome) →
      (Registry.GetEnabled reg).find? (matchesCtx ctx) = some cr →
      ∃ a, cr.Rule.Action = some a ∧
        Evaluator.Evaluate ⟨some reg, stop, d⟩ ctx =
          some ⟨true, some cr.Rule, a.Type', a.Message, a.Reference⟩) ∧
    (∀ (reg : Registry) (stop : Bool) (d : ActionType) (ctx : MatchContext),
      (∀ x ∈ reg, x.Rule.Action.isSome) →
      (Evaluator.Evaluate ⟨some reg, stop, d⟩ ctx).isSome) ∧
    (∀ reg : Registry, RegInv reg →
      List.Sorted ruleLE (Registry.GetEnabled reg)) := by
  have hnil : ∀ (stop : Bool) (d : ActionType) (ctx : MatchContext),
      Evaluator.Evaluate ⟨none, stop, d⟩ ctx = some (unmatched d) :=
    fun _ _ _ => rfl
  have hcase_none : ∀ (reg : Registry) (stop : Bool) (d : ActionType)
      (ctx : MatchContext),
      (Registry.GetEnabled reg).find? (matchesCtx ctx) = none →
      Evaluator.Evaluate ⟨some reg, stop, d⟩ ctx = some (unmatched d) := by
    intro reg stop d ctx hf
    simp only [Evaluator.Evaluate]
    by_cases hemp : (Registry.GetEnabled reg).isEmpty
    · rw [if_pos hemp]
    · rw [if_neg hemp]
      exact evalFirst_of_find_none d ctx _ hf
  have hcase_some : ∀ (reg : Registry) (stop : Bool) (d : ActionType)
      (ctx : MatchContext) (cr : CompiledRule),
      (∀ x ∈ reg, x.Rule.Action.isSome) →
      (Registry.GetEnabled reg).find? (matchesCtx ctx) = some cr →
      ∃ a, cr.Rule.Action = some a ∧
        Evaluator.Evaluate ⟨some reg, stop, d⟩ ctx =
          some ⟨true, some cr.Rule, a.Type', a.Message, a.Reference⟩ := by
    intro reg stop d ctx cr hA hf
    have hA' : ∀ x ∈ Registry.GetEnabled reg, x.Rule.Action.isSome :=
      fun x hx => hA x (mem_of_mem_getEnabled reg x hx)
    rcases evalFirst_of_find_some d ctx _ cr hA' hf with ⟨a, ha, he⟩
    refine ⟨a, ha, ?_⟩
    simp only [Evaluator.Evaluate]
    by_cases hemp : (Registry.GetEnabled reg).isEmpty
    · rw [List.isEmpty_iff] at hemp
      rw [hemp] at hf
      cases hf
    · rw [if_neg (by rw [List.isEmpty_iff]; intro hc; rw [hc] at hf; cases hf)]
      exact he
  refine ⟨hnil, fun _ _ _ => rfl, hcase_none, hcase_some, ?_, ?_⟩
  · intro reg stop d ctx hA
    rcases hf : (Registry.GetEnabled reg).find? (matchesCtx ctx) with _ | cr
    · rw [hcase_none reg stop d ctx hf]
      rfl
    · rcases hcase_some reg stop d ctx cr hA hf with ⟨a, _, he⟩
      rw [he]
      rfl
  · intro reg h
    exact h.2.sublist (List.filter_sublist reg)

/-- Claim C1, witness: the theorem applied at concrete inputs — with an
empty registry and default action warn, any context yields matched=false
and action warn; and a matching always-rule yields its block action. -/
theorem C1_witness :
    Evaluator.Evaluate ⟨some [], true, .warn⟩ ctxEmpty = some (unmatched .warn) ∧
    ∃ a, cr8A.Rule.Action = some a ∧
      Evaluator.Evaluate ⟨some [cr8A], true, .allow⟩ ctxEmpty =
        some ⟨true, some cr8A.Rule, a.Type', a.Message, a.Reference⟩ :=
  ⟨C1_evaluate_first_match.2.2.1 [] true .warn ctxEmpty rfl,
    C1_evaluate_first_match.2.2.2.1 [cr8A] true .allow ctxEmpty cr8A
      (by intro x hx; rw [List.mem_singleton] at hx; subst hx; rfl) rfl⟩

/-- When the collect-all loop produces a non-empty result list, the
first-match loop returns its head. -/
theorem evalFirst_of_evalAll (ctx : MatchContext) (d : ActionType) :
    ∀ (l : Registry) (r : RuleResult) (rs : List RuleResult),
    evalAll ctx l = some (r :: rs) → evalFirst d ctx l = some r
  | [], r, rs, h => by cases h
  | cr :: rest, r, rs, h => by
    rcases hb : Matcher.matchOpt cr.Matcher (some ctx) with _ | b
    · rw [show evalAll ctx (cr :: rest) =
        match Matcher.matchOpt cr.Matcher (some ctx) with
        | none => none
        | some true =>
          match cr.Rule.Action with
          | none => none
          | some a =>
            (evalAll ctx rest).map
              (fun l => ⟨true, some cr.Rule, a.Type', a.Message, a.Reference⟩ :: l)
        | some false => evalAll ctx rest from rfl, hb] at h
      cases h
    · cases b
      · simp only [evalAll, hb] at h
        simp only [evalFirst, hb]
        exact evalFirst_of_evalAll ctx d rest r rs h
      · rcases hact : cr.Rule.Action with _ | a
        · simp only [evalAll, hb, hact] at h
          cases h
        · simp only [evalAll, hb, hact] at h
          rcases Option.map_eq_some'.1 h with ⟨l', _, hcons⟩
          have hr : r = ⟨true, some cr.Rule, a.Type', a.Message, a.Reference⟩ :=
            ((List.cons.injEq ..).mp hcons).1.symm
          simp only [evalFirst, hb, hact, hr]

/-- Claim C9: the result of Evaluate does not depend on the
stopOnFirstMatch flag (Evaluate never reads it), and whenever EvaluateAll
returns a non-empty result list, Evaluate returns exactly its first
element. -/
theorem C9_evaluate_refines_evaluateAll :
    (∀ (oreg : Option Registry) (s₁ s₂ : Bool) (d : ActionType)
      (ctx : MatchContext),
      Evaluator.Evaluate ⟨oreg, s₁, d⟩ ctx = Evaluator.Evaluate ⟨oreg, s₂, d⟩ ctx) ∧
    (∀ (e : Evaluator) (ctx : MatchContext) (r : RuleResult)
      (rs : List RuleResult),
      Evaluator.EvaluateAll e ctx = some (r :: rs) →
      Evaluator.Evaluate e ctx = some r) := by
  refine ⟨fun _ _ _ _ _ => rfl, ?_⟩
  intro e ctx r rs h
  rcases e with ⟨oreg, stop, d⟩
  rcases oreg with _ | reg
  · cases h
  · simp only [Evaluator.EvaluateAll] at h
    simp only [Evaluator.Evaluate]
    by_cases hemp : (Registry.GetEnabled reg).isEmpty
    · rw [if_pos hemp] at h
      cases h
    · rw [if_neg hemp] at h
      rw [if_neg hemp]
      exact evalFirst_of_evalAll ctx d _ r rs h

/-- Claim C9, witness: the theorem applied at concrete inputs — over a
one-rule registry whose rule always matches, EvaluateAll returns a
singleton and Evaluate returns its head. -/
theorem C9_witness :
    Evaluator.Evaluate ⟨some [cr8A], false, .allow⟩ ctxEmpty =
      some ⟨true, some cr8A.Rule, ActionType.block, "m", "r"⟩ :=
  C9_evaluate_refines_evaluateAll.2 ⟨some [cr8A], false, .allow⟩ ctxEmpty
    ⟨true, some cr8A.Rule, ActionType.block, "m", "r"⟩ [] rfl
